import Mathlib

/-!
Verification development for the lambda sequence aligner's core
(suffix-array construction in `index_sa_sort.h`, match regrouping,
LCA computation, band selection, e-value computation and the search
driver in `search_misc.hpp` / `search.hpp`).

Texts are modelled as `List (List α)` (a string-set) over a linearly
ordered alphabet `α` (the SeqAn `ordLess` order).  Suffix positions are
pairs `(seqIndex, offset)`.  Machine loops are modelled by structural
recursion; the one unbounded loop (`computeLCA`'s lockstep walk) takes
an explicit fuel argument and returns `none` when the fuel runs out.
-/

namespace Lambda

/-! ### Generic helpers: strict lexicographic order on lists -/

/-- Strict lexicographic comparison of two lists: the first position where
the lists differ decides; otherwise a strict prefix is smaller. -/
def lexLess {α : Type} [LinearOrder α] : List α → List α → Bool
  | _, [] => false
  | [], _ :: _ => true
  | a :: as, b :: bs => if a < b then true else if b < a then false else lexLess as bs

/-- The element-by-element comparison loop shared by both branches of
`AdvancedSuffixLess_::operator()`: walk both ranges in lockstep and stop
at the first position where `ordLess` holds one way or the other; `none`
if the shorter range is exhausted without a difference. -/
def firstDiffLess {α : Type} [LinearOrder α] : List α → List α → Option Bool
  | a :: as, b :: bs =>
    if a < b then some true
    else if b < a then some false
    else firstDiffLess as bs
  | _, _ => none

/-! ### Suffix positions and the string-set suffix comparator
(`src/index_sa_sort.h`, lines 137-190) -/

/-- The suffix of the string-set `text` starting at position
`p = (seqIndex, offset)`. -/
def suffixAt {α : Type} (text : List (List α)) (p : Nat × Nat) : List α :=
  (text.getD p.1 []).drop p.2

/-- Translation of `AdvancedSuffixLess_<TSAValue, StringSet<...> const>::operator()`
with comparator offset `off` (the `_offset` member).  The progress lambda the
source invokes on every call has no effect on the result and is dropped.
`a = b` returns `false`; otherwise the shorter remaining suffix is walked:
if it is a strict prefix of the other, the branch on lengths decides, and
two fully equal remainders are tie-broken by descending sequence index. -/
def AdvancedSuffixLess_ {α : Type} [LinearOrder α]
    (text : List (List α)) (off : Nat) (a b : Nat × Nat) : Bool :=
  if a = b then false
  else
    let remA := (suffixAt text a).drop off
    let remB := (suffixAt text b).drop off
    if remA.length < remB.length then
      match firstDiffLess remA remB with
      | some r => r
      | none => true
    else
      match firstDiffLess remA remB with
      | some r => r
      | none => if remB.length < remA.length then false else decide (b.1 < a.1)

/-- The comparison key realised by `AdvancedSuffixLess_`: the remaining
suffix contents together with the sequence index. -/
def sKey {α : Type} (text : List (List α)) (off : Nat) (p : Nat × Nat) :
    List α × Nat :=
  ((suffixAt text p).drop off, p.1)

/-- Strict order on comparison keys: lexicographic on the contents,
ties broken by descending sequence index. -/
def sKeyLess {α : Type} [LinearOrder α] (x y : List α × Nat) : Bool :=
  lexLess x.1 y.1 || (decide (x.1 = y.1) && decide (y.2 < x.2))

/-! ### The bucketed suffix-array builder
(`createSuffixArray(..., SaAdvancedSort<QuickSortBucketTag>, ...)`,
`src/index_sa_sort.h`, lines 300-455) -/

/-- Initial coarse-sort prefix length chosen from the alphabet size
(`initialSortLength` selection, lines 348-354). -/
def initialSortLength (sigma : Nat) : Nat :=
  if sigma ≤ 5 then 10
  else if sigma < 10 then 3
  else 2

/-- Identity fill of the suffix array: all positions `(j, i)` in row-major
order (the nested fill loop, lines 356-363). -/
def idFill {α : Type} (text : List (List α)) : List (Nat × Nat) :=
  (List.range text.length).flatMap fun j =>
    (List.range (text.getD j []).length).map fun i => (j, i)

/-- The first `L` characters of the suffix at `p` (truncated at the end of
the sequence); this is the bucket key `infix(text[sa[j].i1], sa[j].i2, min(...))`
used by the bucket detection loop. -/
def qgramKey {α : Type} (text : List (List α)) (L : Nat) (p : Nat × Nat) : List α :=
  (suffixAt text p).take L

/-- Modelled from the spec: `QGramLess_` is a SeqAn library comparator whose
definition is not part of this repository.  Per the spec's step 3, the coarse
sort orders positions by the first `L` characters of the suffix in q-gram
order, with positions whose suffix is shorter than `L` ordered by the shorter
content and then by their natural shortness. -/
def qgramLess {α : Type} [LinearOrder α]
    (text : List (List α)) (L : Nat) (a b : Nat × Nat) : Bool :=
  lexLess (qgramKey text L a) (qgramKey text L b)

/-- Split a list into its maximal runs of adjacent elements related by `beq`
(the bucket-boundary detection: a new bucket starts exactly where an adjacent
pair fails `beq`). -/
def groupRuns {β : Type} (beq : β → β → Bool) : List β → List (List β)
  | [] => []
  | [a] => [[a]]
  | a :: b :: l =>
    match groupRuns beq (b :: l) with
    | [] => [[a]]
    | g :: gs => if beq a b then (a :: g) :: gs else [a] :: g :: gs

/-- Translation of the `QuickSortBucketTag` overload of `createSuffixArray`:
identity fill, coarse sort by the first `L` suffix characters, bucket
detection at `L`-prefix changes, then a full per-bucket sort with the
suffix comparator configured with offset `L`.  Modelled from the spec for
the two library comparators not in the repository: the coarse sort uses
`QGramLess_` (see `qgramLess`) and the refinement uses `SuffixLess_`,
which per the spec's step 5 is the C1 comparator with offset `L`
(`AdvancedSuffixLess_ text L`).  A call `std::sort(..., cmp)` with strict
comparator `cmp` is modelled by `List.insertionSort` with the complement
relation `fun a b => cmp b a = false`: the result is a permutation in which
`cmp b a` fails for every pair `a` before `b`, which is exactly the
postcondition of `std::sort`. -/
def createSuffixArray {α : Type} [LinearOrder α]
    (sigma : Nat) (text : List (List α)) : List (Nat × Nat) :=
  let L := initialSortLength sigma
  let sa1 := List.insertionSort (fun a b => qgramLess text L b a = false) (idFill text)
  let buckets := groupRuns (fun a b => decide (qgramKey text L a = qgramKey text L b)) sa1
  (buckets.map fun g =>
    List.insertionSort (fun a b => AdvancedSuffixLess_ text L b a = false) g).flatten

/-! ### Matches and `myHyperSortSingleIndex` (`src/search_misc.hpp`, lines 44-99) -/

/-- Modelled from the spec: the `Match` record (defined in
`search_datastructures.hpp`, which is not part of the provided sources) has
fields `qryId` (with frame encoding), `subjId` (with frame encoding),
`qryStart`, `subjStart` and the seed `length`. -/
structure Match where
  qryId : Nat
  subjId : Nat
  qryStart : Nat
  subjStart : Nat
  len : Nat
deriving DecidableEq

/-- Modelled from the spec: `Match` ordering (its `operator<`, not in the
provided sources) is lexicographic by `(qryId, subjId, subjStart, qryStart)`. -/
def matchLt (a b : Match) : Bool :=
  if a.qryId ≠ b.qryId then decide (a.qryId < b.qryId)
  else if a.subjId ≠ b.subjId then decide (a.subjId < b.subjId)
  else if a.subjStart ≠ b.subjStart then decide (a.subjStart < b.subjStart)
  else decide (a.qryStart < b.qryStart)

/-- The key at which the interval-detection loop of `myHyperSortSingleIndex`
splits: a new interval starts where `qryId` (frame NOT collapsed) or
`subjId / sNumFrames(blastProgram)` changes.  `sF` is
`sNumFrames(TGH::blastProgram)`. -/
def hyperKey (sF : Nat) (m : Match) : Nat × Nat :=
  (m.qryId, m.subjId / sF)

/-- Translation of `myHyperSortSingleIndex`: sort the matches, cut them into
intervals at every change of `(qryId, subjId / sF)`, sort the intervals by
decreasing size (`std::sort` with comparator `size(i1) > size(i2)`), and
concatenate the intervals in the new order.  As in `createSuffixArray`,
each `std::sort(..., cmp)` is modelled by `List.insertionSort` with the
complement relation of its strict comparator. -/
def myHyperSortSingleIndex (sF : Nat) (ms : List Match) : List Match :=
  let sorted := List.insertionSort (fun a b => matchLt b a = false) ms
  let intervals := groupRuns (fun a b => decide (hyperKey sF a = hyperKey sF b)) sorted
  let intervals2 :=
    List.insertionSort (fun g h => decide (g.length < h.length) = false) intervals
  intervals2.flatten

/-- A list is contiguous for a key function when equal-key elements form a
single run: the maximal runs of equal keys have pairwise distinct keys. -/
def contiguousBy {β γ : Type} [DecidableEq γ] (k : β → γ) (l : List β) : Prop :=
  (groupRuns (fun a b => decide (k a = k b)) l).Pairwise
    (fun g h => ∀ x ∈ g, ∀ y ∈ h, k x ≠ k y)

/-! ### LCA computation (`src/search_misc.hpp`, lines 229-255) -/

/-- `k`-fold parent lifting: the result of executing `n = taxParents[n]`
`k` times (the body of both height-equalisation loops). -/
def liftN (taxParents : List Nat) : Nat → Nat → Nat
  | 0, n => n
  | k + 1, n => liftN taxParents k (taxParents.getD n 0)

/-- The lockstep `while ((n1 != 0) && (n2 != 0))` loop of `computeLCA`,
with explicit fuel: `some (.ok v)` models `return v`, `some (.error ())`
models the `std::runtime_error` thrown after the loop, and `none` means the
fuel ran out before the loop exited. -/
def lcaLoop (taxParents : List Nat) : Nat → Nat → Nat → Option (Except Unit Nat)
  | 0, _, _ => none
  | fuel + 1, n1, n2 =>
    if n1 ≠ 0 ∧ n2 ≠ 0 then
      if n1 = n2 then some (Except.ok n1)
      else lcaLoop taxParents fuel (taxParents.getD n1 0) (taxParents.getD n2 0)
    else some (Except.error ())

/-- Translation of `computeLCA`: equal nodes return immediately; otherwise
the deeper node is lifted to the shallower height (the two unsigned
for-loops run `taxHeights[n1] - taxHeights[n2]` resp.
`taxHeights[n2] - taxHeights[n1']` times) and the lockstep loop runs. -/
def computeLCA (taxParents taxHeights : List Nat) (n1 n2 : Nat) (fuel : Nat) :
    Option (Except Unit Nat) :=
  if n1 = n2 then some (Except.ok n1)
  else
    let n1a := liftN taxParents (taxHeights.getD n1 0 - taxHeights.getD n2 0) n1
    let n2a := liftN taxParents (taxHeights.getD n2 0 - taxHeights.getD n1a 0) n2
    lcaLoop taxParents fuel n1a n2a

/-- Well-formedness of a taxonomy, as assumed by the spec: node `0` is the
sentinel, `r` is the root (height `0`); every non-root node's parent is a
node of height one less; every height-`0` node is the root. -/
@[reducible] def TaxValid (taxParents taxHeights : List Nat) (r : Nat) : Prop :=
  0 < r ∧ r < taxParents.length ∧ taxHeights.getD r 0 = 0 ∧
  (∀ n, n < taxParents.length → 0 < n → 0 < taxHeights.getD n 0 →
    0 < taxParents.getD n 0 ∧ taxParents.getD n 0 < taxParents.length ∧
    taxHeights.getD (taxParents.getD n 0) 0 = taxHeights.getD n 0 - 1) ∧
  (∀ n, n < taxParents.length → 0 < n → taxHeights.getD n 0 = 0 → n = r)

/-! ### Band size selection (`src/search_misc.hpp`, lines 158-186) -/

/-- Association-list lookup, modelling `lH.bandTable.find(seqLength)` resp.
the cache `find` in `computeEValueThreadSafe`. -/
def assocFind {γ : Type} : List (Nat × γ) → Nat → Option γ
  | [], _ => none
  | (k', v) :: rest, k => if k' = k then some v else assocFind rest k

/-- Association-list store, modelling `table[k] = v` (replace or append). -/
def assocStore {γ : Type} : List (Nat × γ) → Nat → γ → List (Nat × γ)
  | [], k, v => [(k, v)]
  | (k', v') :: rest, k, v =>
    if k' = k then (k, v) :: rest else (k', v') :: assocStore rest k v

/-- `std::numeric_limits<int>::max()`. -/
def intMax : Int := 2 ^ 31 - 1

/-- Translation of `_bandSize`.  The worker's memoization table
`lH.bandTable` is passed and returned explicitly; `band` is
`lH.options.band`.  The real-valued `ceil(std::log2(n))` and
`floor(sqrt(n))` are modelled by the exact `Nat.clog 2` and `Nat.sqrt`. -/
def _bandSize (band : Int) (bandTable : List (Nat × Int)) (seqLength : Nat) :
    Int × List (Nat × Int) :=
  if band = -3 ∨ band = -2 then
    let ret : Int :=
      match assocFind bandTable seqLength with
      | some v => v
      | none =>
        if band = -3 then (Nat.clog 2 seqLength : Int) else (Nat.sqrt seqLength : Int)
    (ret, assocStore bandTable seqLength ret)
  else if band = -1 then (intMax, bandTable)
  else (band, bandTable)

/-! ### Thread-safe e-value computation (`src/search_misc.hpp`, lines 192-223) -/

/-- Subtraction of `uint64_t` values (the `ql - adj` and
`context.dbTotalLength - adj` expressions). -/
def sub64 (a b : Nat) : Nat :=
  (a % 2 ^ 64 + (2 ^ 64 - b % 2 ^ 64)) % 2 ^ 64

/-- The part of a `BlastMatch` that `computeEValueThreadSafe` touches:
the raw alignment score that is read and the e-value field that is set.
The e-value type is abstract (`double` in the source). -/
structure BMatch (ε : Type) where
  alignmentScore : Nat
  eValue : ε

/-- Translation of `computeEValueThreadSafe`.  The SeqAn library functions
`_lengthAdjustment` (Karlin-Altschul iteration) and `_computeEValue` are not
part of the repository and are taken as abstract functions `lengthAdj`
(of the database length and the query length; the scoring scheme is folded
in) and `evalue` (of raw score, effective query length, effective database
length).  The thread-local cache is passed and returned explicitly;
`qryTranslated` is `qIsTranslated(context.blastProgram)`. -/
def computeEValueThreadSafe {ε : Type}
    (qryTranslated : Bool) (dbTotalLength : Nat)
    (lengthAdj : Nat → Nat → Nat) (evalue : Nat → Nat → Nat → ε)
    (m : BMatch ε) (ql0 : Nat) (cache : List (Nat × Nat)) :
    BMatch ε × ε × List (Nat × Nat) :=
  let ql := ql0 / (if qryTranslated then 3 else 1)
  let cache1 :=
    if assocFind cache ql = none
    then assocStore cache ql (lengthAdj dbTotalLength ql)
    else cache
  let adj := (assocFind cache1 ql).getD 0
  let ev := evalue m.alignmentScore (sub64 ql adj) (sub64 dbTotalLength adj)
  ({ m with eValue := ev }, ev, cache1)

/-! ### The driver's catch sites (`src/search.hpp`, lines 74-109) -/

/-- Outcome of running `argConv0(options)` (the whole search pipeline,
abstracted): success, or one of the three exception kinds the driver
catches. -/
inductive RunOutcome where
  | success : RunOutcome
  | badAlloc : RunOutcome
  | indexError (what : String) : RunOutcome
  | otherError (what : String) : RunOutcome
deriving DecidableEq

/-- The out-of-memory diagnostic template of the first catch site. -/
def oomDiag : String :=
  "\n\nERROR: Lambda ran out of memory :(\n" ++
  "       You need to split your file into smaller segments or search against a smaller database.\n"

/-- The index-error diagnostic template of the second catch site. -/
def indexDiag (what : String) : String :=
  "\n\nERROR: The following exception was thrown while reading the index:\n" ++
  "       \"" ++ what ++ "\"\n" ++
  "       Make sure the directory exists and is readable; recreate the index and try again.\n" ++
  "       If the problem persists, report an issue at https://github.com/seqan/lambda/issues " ++
  "and include this output, as well as the output of `lambda2 --version`, thanks!\n"

/-- The generic diagnostic template of the third catch site. -/
def genericDiag (what : String) : String :=
  "\n\nERROR: The following unspecified exception was thrown:\n" ++
  "       \"" ++ what ++ "\"\n" ++
  "       If the problem persists, report an issue at https://github.com/seqan/lambda/issues " ++
  "and include this output, as well as the output of `lambda2 --version`, thanks!\n"

/-- Translation of `searchMain`'s try/catch structure (the `NDEBUG` build):
the pipeline outcome is matched by the three catch sites; the result is the
return code together with the diagnostic printed to `stderr`. -/
def searchMain (run : RunOutcome) : Int × String :=
  match run with
  | RunOutcome.success => (0, "")
  | RunOutcome.badAlloc => (-1, oomDiag)
  | RunOutcome.indexError what => (-1, indexDiag what)
  | RunOutcome.otherError what => (-1, genericDiag what)

/-! ## Lemma layer: the strict lexicographic order -/

theorem lexLess_iff {α : Type} [LinearOrder α] :
    ∀ (u v : List α), lexLess u v = true ↔ List.Lex (· < ·) u v := by
  intro u
  induction u with
  | nil =>
    intro v
    cases v with
    | nil =>
      simp only [lexLess, Bool.false_eq_true, false_iff]
      exact List.Lex.not_nil_right _ _
    | cons b bs =>
      simp only [lexLess, true_iff]
      exact List.Lex.nil
  | cons a as ih =>
    intro v
    cases v with
    | nil =>
      simp only [lexLess, Bool.false_eq_true, false_iff]
      exact List.Lex.not_nil_right _ _
    | cons b bs =>
      simp only [lexLess]
      rcases lt_trichotomy a b with h | h | h
      · simp only [if_pos h, true_iff]
        exact List.Lex.rel h
      · subst h
        simp only [lt_irrefl, if_false, ite_self]
        rw [ih bs]
        exact List.Lex.cons_iff.symm
      · have h1 : ¬ a < b := lt_asymm h
        simp only [if_neg h1, if_pos h, Bool.false_eq_true, false_iff]
        intro hlex
        cases hlex with
        | rel h2 => exact h1 h2
        | cons h2 => exact lt_irrefl a h

theorem lexLess_irrefl {α : Type} [LinearOrder α] (u : List α) :
    lexLess u u = false := by
  rcases Bool.eq_false_or_eq_true (lexLess u u) with h | h
  · exact absurd ((lexLess_iff u u).mp h) (irrefl u)
  · exact h

theorem lexLess_trans {α : Type} [LinearOrder α] {u v w : List α}
    (h₁ : lexLess u v = true) (h₂ : lexLess v w = true) : lexLess u w = true :=
  (lexLess_iff u w).mpr
    (IsTrans.trans u v w ((lexLess_iff u v).mp h₁) ((lexLess_iff v w).mp h₂))

theorem lexLess_asymm {α : Type} [LinearOrder α] {u v : List α}
    (h : lexLess u v = true) : lexLess v u = false := by
  rcases Bool.eq_false_or_eq_true (lexLess v u) with h' | h'
  · exact absurd ((lexLess_iff v u).mp h') (asymm ((lexLess_iff u v).mp h))
  · exact h'

theorem lexLess_conn {α : Type} [LinearOrder α] {u v : List α}
    (h₁ : lexLess u v = false) (h₂ : lexLess v u = false) : u = v := by
  have htr : IsTrichotomous (List α) (List.Lex (· < ·)) := inferInstance
  rcases htr.trichotomous u v with h | h | h
  · rw [(lexLess_iff u v).mpr h] at h₁; exact absurd h₁ (by simp)
  · exact h
  · rw [(lexLess_iff v u).mpr h] at h₂; exact absurd h₂ (by simp)

theorem lexLess_append_left {α : Type} [LinearOrder α] :
    ∀ (p u v : List α), lexLess (p ++ u) (p ++ v) = lexLess u v := by
  intro p
  induction p with
  | nil => intro u v; rfl
  | cons a p ih =>
    intro u v
    simp only [List.cons_append, lexLess, lt_irrefl, if_neg, if_false, ite_self]
    exact ih u v

theorem lexLess_take {α : Type} [LinearOrder α] :
    ∀ (n : Nat) (u v : List α),
      lexLess (u.take n) (v.take n) = true → lexLess u v = true := by
  intro n
  induction n with
  | zero => intro u v h; simp [lexLess] at h
  | succ n ih =>
    intro u v h
    cases u with
    | nil =>
      cases v with
      | nil => simp [lexLess] at h
      | cons b bs => simp [lexLess]
    | cons a as =>
      cases v with
      | nil => simp [lexLess] at h
      | cons b bs =>
        simp only [List.take_succ_cons, lexLess] at h ⊢
        rcases lt_trichotomy a b with h1 | h1 | h1
        · simp [h1]
        · subst h1
          simp only [lt_irrefl, if_neg, if_false, ite_self] at h ⊢
          exact ih as bs h
        · simp only [lt_asymm h1, if_neg, if_false, h1, if_pos] at h
          exact absurd h (by simp)

/-! ## Lemma layer: the comparison loop -/

theorem firstDiffLess_some {α : Type} [LinearOrder α] :
    ∀ {u v : List α} {r : Bool}, firstDiffLess u v = some r → lexLess u v = r := by
  intro u
  induction u with
  | nil => intro v r h; cases v <;> simp [firstDiffLess] at h
  | cons a as ih =>
    intro v r h
    cases v with
    | nil => simp [firstDiffLess] at h
    | cons b bs =>
      simp only [firstDiffLess] at h
      simp only [lexLess]
      rcases lt_trichotomy a b with h1 | h1 | h1
      · simp only [if_pos h1] at h ⊢; exact Option.some_inj.mp h
      · subst h1
        simp only [lt_irrefl, if_false, ite_self] at h ⊢
        exact ih h
      · simp only [if_neg (lt_asymm h1), if_pos h1] at h ⊢
        exact Option.some_inj.mp h

theorem firstDiffLess_none_lex {α : Type} [LinearOrder α] :
    ∀ {u v : List α}, firstDiffLess u v = none →
      lexLess u v = decide (u.length < v.length) := by
  intro u
  induction u with
  | nil => intro v _; cases v <;> simp [lexLess]
  | cons a as ih =>
    intro v h
    cases v with
    | nil => simp [lexLess]
    | cons b bs =>
      simp only [firstDiffLess] at h
      simp only [lexLess, List.length_cons]
      rcases lt_trichotomy a b with h1 | h1 | h1
      · simp only [if_pos h1] at h; exact absurd h (by simp)
      · subst h1
        simp only [lt_irrefl, if_false, ite_self] at h ⊢
        rw [ih h]
        simp [Nat.succ_lt_succ_iff]
      · simp only [if_neg (lt_asymm h1), if_pos h1] at h
        exact absurd h (by simp)

theorem firstDiffLess_none_eq {α : Type} [LinearOrder α] :
    ∀ {u v : List α}, firstDiffLess u v = none → u.length = v.length → u = v := by
  intro u
  induction u with
  | nil => intro v _ hl; cases v with
    | nil => rfl
    | cons b bs => simp at hl
  | cons a as ih =>
    intro v h hl
    cases v with
    | nil => simp at hl
    | cons b bs =>
      simp only [firstDiffLess] at h
      rcases lt_trichotomy a b with h1 | h1 | h1
      · simp only [if_pos h1] at h; exact absurd h (by simp)
      · subst h1
        simp only [lt_irrefl, if_false, ite_self] at h
        simp only [List.length_cons, Nat.succ.injEq] at hl
        rw [ih h hl]
      · simp only [if_neg (lt_asymm h1), if_pos h1] at h
        exact absurd h (by simp)

theorem firstDiffLess_self {α : Type} [LinearOrder α] :
    ∀ (u : List α), firstDiffLess u u = none := by
  intro u
  induction u with
  | nil => rfl
  | cons a as ih => simp [firstDiffLess, ih]

/-! ## Lemma layer: the suffix comparator as a key comparison -/

theorem advCore_eq {α : Type} [LinearOrder α] (u v : List α) (p q : Nat) :
    (if u.length < v.length then
      match firstDiffLess u v with
      | some r => r
      | none => true
    else
      match firstDiffLess u v with
      | some r => r
      | none => if v.length < u.length then false else decide (q < p)) =
    (lexLess u v || (decide (u = v) && decide (q < p))) := by
  rcases hfd : firstDiffLess u v with _ | r
  · have hlex := firstDiffLess_none_lex hfd
    rcases Nat.lt_trichotomy u.length v.length with h | h | h
    · rw [if_pos h]
      show true = _
      rw [hlex]
      simp [h]
    · have heq := firstDiffLess_none_eq hfd h
      subst heq
      rw [if_neg (lt_irrefl _)]
      show (if u.length < u.length then false else decide (q < p)) = _
      rw [if_neg (lt_irrefl _)]
      simp [lexLess_irrefl]
    · have hne : u ≠ v := by
        intro he; rw [he] at h; exact lt_irrefl _ h
      rw [if_neg (Nat.lt_asymm h)]
      show (if v.length < u.length then false else decide (q < p)) = _
      rw [if_pos h, hlex]
      simp [Nat.lt_asymm h, hne]
  · have hlex := firstDiffLess_some hfd
    show (if u.length < v.length then r else r) = _
    rw [ite_self, hlex]
    cases r with
    | true => simp
    | false =>
      have hne : u ≠ v := by
        intro he
        rw [he, firstDiffLess_self] at hfd
        exact Option.noConfusion hfd
      simp [hne]

theorem AdvancedSuffixLess_eq_sKeyLess {α : Type} [LinearOrder α]
    (text : List (List α)) (off : Nat) (a b : Nat × Nat) :
    AdvancedSuffixLess_ text off a b = sKeyLess (sKey text off a) (sKey text off b) := by
  unfold AdvancedSuffixLess_ sKeyLess sKey
  by_cases hab : a = b
  · subst hab
    simp [lexLess_irrefl]
  · simp only [if_neg hab]
    exact advCore_eq ((suffixAt text a).drop off) ((suffixAt text b).drop off) a.1 b.1

/-! ## Lemma layer: order properties of the key comparison -/

theorem sKeyLess_iff {α : Type} [LinearOrder α] (x y : List α × Nat) :
    sKeyLess x y = true ↔
      (List.Lex (· < ·) x.1 y.1 ∨ (x.1 = y.1 ∧ y.2 < x.2)) := by
  simp [sKeyLess, lexLess_iff]

theorem sKeyLess_irrefl {α : Type} [LinearOrder α] (x : List α × Nat) :
    sKeyLess x x = false := by
  simp [sKeyLess, lexLess_irrefl]

theorem sKeyLess_asymm {α : Type} [LinearOrder α] {x y : List α × Nat}
    (h : sKeyLess x y = true) : sKeyLess y x = false := by
  cases hb : sKeyLess y x with
  | false => rfl
  | true =>
    exfalso
    rcases (sKeyLess_iff x y).mp h with h1 | ⟨h1, h2⟩ <;>
      rcases (sKeyLess_iff y x).mp hb with h3 | ⟨h3, h4⟩
    · exact asymm h1 h3
    · rw [h3] at h1; exact (irrefl _) h1
    · rw [h1] at h3; exact (irrefl _) h3
    · exact Nat.lt_asymm h2 h4

theorem sKeyLess_trans {α : Type} [LinearOrder α] {x y z : List α × Nat}
    (h₁ : sKeyLess x y = true) (h₂ : sKeyLess y z = true) :
    sKeyLess x z = true := by
  rw [sKeyLess_iff] at h₁ h₂ ⊢
  rcases h₁ with h1 | ⟨h1, h1'⟩ <;> rcases h₂ with h2 | ⟨h2, h2'⟩
  · exact Or.inl (IsTrans.trans _ _ _ h1 h2)
  · exact Or.inl (h2 ▸ h1)
  · exact Or.inl (by rw [h1]; exact h2)
  · exact Or.inr ⟨h1.trans h2, Nat.lt_trans h2' h1'⟩

theorem sKeyLess_conn {α : Type} [LinearOrder α] {x y : List α × Nat}
    (h₁ : sKeyLess x y = false) (h₂ : sKeyLess y x = false) : x = y := by
  have n₁ : ¬ (List.Lex (· < ·) x.1 y.1 ∨ (x.1 = y.1 ∧ y.2 < x.2)) := by
    rw [← sKeyLess_iff]; simp [h₁]
  have n₂ : ¬ (List.Lex (· < ·) y.1 x.1 ∨ (y.1 = x.1 ∧ x.2 < y.2)) := by
    rw [← sKeyLess_iff]; simp [h₂]
  push_neg at n₁ n₂
  have hl1 : lexLess x.1 y.1 = false := by
    cases hb : lexLess x.1 y.1 with
    | false => rfl
    | true => exact absurd ((lexLess_iff _ _).mp hb) n₁.1
  have hl2 : lexLess y.1 x.1 = false := by
    cases hb : lexLess y.1 x.1 with
    | false => rfl
    | true => exact absurd ((lexLess_iff _ _).mp hb) n₂.1
  have he : x.1 = y.1 := lexLess_conn hl1 hl2
  have hs : x.2 = y.2 := Nat.le_antisymm (n₁.2 he) (n₂.2 he.symm)
  exact Prod.ext he hs

theorem sKeyLess_nlt_trans {α : Type} [LinearOrder α] {x y z : List α × Nat}
    (h₁ : sKeyLess y x = false) (h₂ : sKeyLess z y = false) :
    sKeyLess z x = false := by
  cases h3 : sKeyLess z x with
  | false => rfl
  | true =>
    exfalso
    cases h4 : sKeyLess x y with
    | true =>
      have := sKeyLess_trans h3 h4
      rw [this] at h₂
      exact Bool.noConfusion h₂
    | false =>
      have hxy : x = y := sKeyLess_conn h4 h₁
      rw [hxy] at h3
      rw [h3] at h₂
      exact Bool.noConfusion h₂

theorem lexLess_nlt_trans {α : Type} [LinearOrder α] {x y z : List α}
    (h₁ : lexLess y x = false) (h₂ : lexLess z y = false) :
    lexLess z x = false := by
  cases h3 : lexLess z x with
  | false => rfl
  | true =>
    exfalso
    cases h4 : lexLess x y with
    | true =>
      have := lexLess_trans h3 h4
      rw [this] at h₂
      exact Bool.noConfusion h₂
    | false =>
      have hxy : x = y := lexLess_conn h4 h₁
      rw [hxy] at h3
      rw [h3] at h₂
      exact Bool.noConfusion h₂

/-! ## Lemma layer: runs and buckets -/

theorem groupRuns_cons_cons {β : Type} (beq : β → β → Bool) (a b : β) (l : List β) :
    groupRuns beq (a :: b :: l) =
      match groupRuns beq (b :: l) with
      | [] => [[a]]
      | g :: gs => if beq a b then (a :: g) :: gs else [a] :: g :: gs := by
  rfl

theorem groupRuns_cons_cons' {β : Type} (beq : β → β → Bool) (a b : β) (l : List β)
    {g : List β} {gs : List (List β)} (hg : groupRuns beq (b :: l) = g :: gs) :
    groupRuns beq (a :: b :: l) =
      if beq a b then (a :: g) :: gs else [a] :: g :: gs := by
  rw [groupRuns_cons_cons, hg]

theorem groupRuns_cons {β : Type} (beq : β → β → Bool) :
    ∀ (b : β) (l : List β), ∃ g gs, groupRuns beq (b :: l) = (b :: g) :: gs
  | _, [] => ⟨[], [], rfl⟩
  | b, c :: l => by
    obtain ⟨g, gs, hg⟩ := groupRuns_cons beq c l
    rw [groupRuns_cons_cons' beq b c l hg]
    by_cases h : beq b c = true
    · exact ⟨c :: g, gs, by simp [h]⟩
    · exact ⟨[], (c :: g) :: gs, by simp [h]⟩

theorem groupRuns_flatten {β : Type} (beq : β → β → Bool) :
    ∀ (l : List β), (groupRuns beq l).flatten = l
  | [] => rfl
  | [_] => rfl
  | a :: b :: l => by
    obtain ⟨g, gs, hg⟩ := groupRuns_cons beq b l
    have ih := groupRuns_flatten beq (b :: l)
    rw [hg] at ih
    rw [groupRuns_cons_cons' beq a b l hg]
    by_cases h : beq a b = true
    · simp only [if_pos h]
      simp only [List.flatten_cons] at ih ⊢
      simp only [List.cons_append]
      exact congrArg (List.cons a) ih
    · simp only [h, if_false]
      simp only [List.flatten_cons] at ih ⊢
      simp [ih]

theorem groupRuns_chain {β : Type} (beq : β → β → Bool) :
    ∀ (l : List β), ∀ g ∈ groupRuns beq l, List.Chain' (fun x y => beq x y = true) g
  | [], g => by simp [groupRuns]
  | [a], g => by
    intro hg
    simp only [groupRuns, List.mem_singleton] at hg
    subst hg
    simp
  | a :: b :: l, g => by
    intro hgmem
    obtain ⟨g0, gs, hg⟩ := groupRuns_cons beq b l
    have ih := fun g' hm => groupRuns_chain beq (b :: l) g' hm
    rw [hg] at ih
    rw [groupRuns_cons_cons' beq a b l hg] at hgmem
    by_cases h : beq a b = true
    · rw [if_pos h] at hgmem
      rcases List.mem_cons.mp hgmem with rfl | hmem
      · rw [List.chain'_cons]
        exact ⟨h, ih (b :: g0) (List.mem_cons_self _ _)⟩
      · exact ih g (List.mem_cons_of_mem _ hmem)
    · rw [if_neg h] at hgmem
      rcases List.mem_cons.mp hgmem with rfl | hmem
      · simp
      · exact ih g hmem

theorem chain_eq_all {β γ : Type} (k : β → γ) :
    ∀ (g : List β) (a : β), List.Chain' (fun x y => k x = k y) (a :: g) →
      ∀ x ∈ a :: g, k x = k a
  | [], a, _ => by simp
  | b :: g, a, h => by
    rw [List.chain'_cons] at h
    intro x hx
    rcases List.mem_cons.mp hx with rfl | hx'
    · rfl
    · rw [chain_eq_all k g b h.2 x hx']
      exact h.1.symm

theorem groupRuns_key_const {β γ : Type} [DecidableEq γ] (k : β → γ)
    (l : List β) (g : List β)
    (hg : g ∈ groupRuns (fun x y => decide (k x = k y)) l) :
    ∀ x ∈ g, ∀ y ∈ g, k x = k y := by
  have hch := groupRuns_chain (fun x y => decide (k x = k y)) l g hg
  have hch' : List.Chain' (fun x y => k x = k y) g := by
    refine List.Chain'.imp ?_ hch
    intro x y hxy
    exact of_decide_eq_true hxy
  cases g with
  | nil => simp
  | cons a g' =>
    intro x hx y hy
    rw [chain_eq_all k g' a hch' x hx, chain_eq_all k g' a hch' y hy]

theorem groupRuns_sublist {β : Type} (beq : β → β → Bool) (l : List β)
    (g : List β) (hg : g ∈ groupRuns beq l) : g.Sublist l := by
  have := List.sublist_flatten_of_mem hg
  rwa [groupRuns_flatten] at this

theorem groupRuns_cross {β γ : Type} [DecidableEq γ] (k : β → γ) (R : β → β → Prop)
    (hconv : ∀ x y z, R x y → R y z → k x = k z → k x = k y) :
    ∀ (l : List β), l.Pairwise R →
      (groupRuns (fun x y => decide (k x = k y)) l).Pairwise
        (fun g h => ∀ x ∈ g, ∀ y ∈ h, k x ≠ k y)
  | [], _ => by simp [groupRuns]
  | [a], _ => by simp [groupRuns]
  | a :: b :: l, hp => by
    obtain ⟨g, gs, hg⟩ := groupRuns_cons (fun x y => decide (k x = k y)) b l
    have hp' : (b :: l).Pairwise R := (List.pairwise_cons.mp hp).2
    have hRa : ∀ x ∈ b :: l, R a x := (List.pairwise_cons.mp hp).1
    have ih := groupRuns_cross k R hconv (b :: l) hp'
    rw [hg] at ih
    have hconstbg : ∀ x ∈ b :: g, k x = k b := fun x hx =>
      groupRuns_key_const k (b :: l) (b :: g) (hg ▸ List.mem_cons_self _ _)
        x hx b (List.mem_cons_self _ _)
    rw [groupRuns_cons_cons' _ a b l hg]
    by_cases hab : k a = k b
    · rw [if_pos (show decide (k a = k b) = true by simp [hab])]
      rw [List.pairwise_cons] at ih ⊢
      refine ⟨?_, ih.2⟩
      intro h hmem x hx y hy
      rcases List.mem_cons.mp hx with rfl | hx'
      · rw [hab]
        exact ih.1 h hmem b (List.mem_cons_self _ _) y hy
      · exact ih.1 h hmem x hx' y hy
    · rw [if_neg (show ¬ decide (k a = k b) = true by simp [hab])]
      rw [List.pairwise_cons]
      refine ⟨?_, ih⟩
      intro h hmem x hx y hy
      rcases List.mem_cons.mp hx with rfl | hx'
      · rcases List.mem_cons.mp hmem with rfl | hmem'
        · intro hk
          exact hab (hk.trans (hconstbg y hy))
        · intro hk
          have hyin : y ∈ b :: l := by
            have hmy : y ∈ ((b :: g) :: gs).flatten :=
              List.mem_flatten_of_mem (List.mem_cons_of_mem _ hmem') hy
            have hfl := groupRuns_flatten (fun x y => decide (k x = k y)) (b :: l)
            rw [hg] at hfl
            rwa [hfl] at hmy
          rcases List.mem_cons.mp hyin with rfl | hyl
          · exact hab hk
          · have hRab : R x b := hRa b (List.mem_cons_self _ _)
            have hRby : R b y := (List.pairwise_cons.mp hp').1 y hyl
            exact hab (hconv x b y hRab hRby hk)
      · exact absurd hx' (List.not_mem_nil x)

/-! ## Lemma layer: the identity fill and bucket facts -/

theorem mem_idFill {α : Type} (text : List (List α)) (p : Nat × Nat) :
    p ∈ idFill text ↔ p.1 < text.length ∧ p.2 < (text.getD p.1 []).length := by
  cases p with
  | mk s o =>
    simp only [idFill, List.mem_flatMap, List.mem_range, List.mem_map, Prod.mk.injEq]
    constructor
    · rintro ⟨j, hj, i, hi, rfl, rfl⟩
      exact ⟨hj, hi⟩
    · rintro ⟨h1, h2⟩
      exact ⟨s, h1, o, h2, rfl, rfl⟩

theorem nodup_idFill {α : Type} (text : List (List α)) : (idFill text).Nodup := by
  rw [idFill, List.flatMap_def]
  refine List.pairwise_flatten.mpr ⟨?_, ?_⟩
  · intro l hl
    obtain ⟨j, _, rfl⟩ := List.mem_map.mp hl
    refine List.Nodup.map ?_ (List.nodup_range _)
    intro i1 i2 h
    exact (Prod.mk.injEq _ _ _ _).mp h |>.2
  · refine List.pairwise_map.mpr ?_
    refine (List.pairwise_lt_range _).imp ?_
    intro j j' hjj x hx y hy
    obtain ⟨i, _, rfl⟩ := List.mem_map.mp hx
    obtain ⟨i', _, rfl⟩ := List.mem_map.mp hy
    intro hc
    have := (Prod.mk.injEq _ _ _ _).mp hc |>.1
    exact absurd this (Nat.ne_of_lt hjj)

theorem sKeyLess_append {α : Type} [LinearOrder α] (c u v : List α) (m n : Nat) :
    sKeyLess (c ++ u, m) (c ++ v, n) = sKeyLess (u, m) (v, n) := by
  unfold sKeyLess
  simp only [lexLess_append_left, List.append_right_inj]

theorem bucket_sKey_ne {α : Type} [LinearOrder α] (text : List (List α)) (L : Nat)
    {a b : Nat × Nat}
    (ha : a.1 < text.length ∧ a.2 < (text.getD a.1 []).length)
    (hb : b.1 < text.length ∧ b.2 < (text.getD b.1 []).length)
    (hne : a ≠ b)
    (hkey : qgramKey text L a = qgramKey text L b) :
    sKey text L a ≠ sKey text L b := by
  intro hk
  have h1 : (suffixAt text a).drop L = (suffixAt text b).drop L :=
    congrArg Prod.fst hk
  have h2 : a.1 = b.1 := congrArg Prod.snd hk
  have h3 : a.2 ≠ b.2 := fun h => hne (Prod.ext h2 h)
  have hlk := congrArg List.length hkey
  have hld := congrArg List.length h1
  have hsb : (suffixAt text b).length = (text.getD a.1 []).length - b.2 := by
    simp [suffixAt, ← h2]
  have hsa : (suffixAt text a).length = (text.getD a.1 []).length - a.2 := by
    simp [suffixAt]
  simp only [qgramKey, List.length_take, List.length_drop, hsa, hsb] at hlk hld
  have hb2 : b.2 < (text.getD a.1 []).length := h2 ▸ hb.2
  omega

theorem flatten_map_insertionSort_perm {β : Type} (r : β → β → Prop) [DecidableRel r] :
    ∀ (L : List (List β)),
      ((L.map fun g => List.insertionSort r g).flatten).Perm L.flatten
  | [] => List.Perm.refl _
  | g :: gs => by
    simp only [List.map_cons, List.flatten_cons]
    exact (List.perm_insertionSort r g).append (flatten_map_insertionSort_perm r gs)

theorem advLe_isTrans {α : Type} [LinearOrder α] (text : List (List α)) (off : Nat) :
    IsTrans (Nat × Nat) (fun a b => AdvancedSuffixLess_ text off b a = false) := by
  constructor
  intro a b c h₁ h₂
  rw [AdvancedSuffixLess_eq_sKeyLess] at h₁ h₂ ⊢
  exact sKeyLess_nlt_trans h₁ h₂

theorem advLe_isTotal {α : Type} [LinearOrder α] (text : List (List α)) (off : Nat) :
    IsTotal (Nat × Nat) (fun a b => AdvancedSuffixLess_ text off b a = false) := by
  constructor
  intro a b
  cases hx : AdvancedSuffixLess_ text off b a with
  | false => exact Or.inl rfl
  | true =>
    refine Or.inr ?_
    rw [AdvancedSuffixLess_eq_sKeyLess] at hx ⊢
    exact sKeyLess_asymm hx

theorem qgramLe_isTrans {α : Type} [LinearOrder α] (text : List (List α)) (L : Nat) :
    IsTrans (Nat × Nat) (fun a b => qgramLess text L b a = false) := by
  constructor
  intro a b c h₁ h₂
  unfold qgramLess at h₁ h₂ ⊢
  exact lexLess_nlt_trans h₁ h₂

theorem qgramLe_isTotal {α : Type} [LinearOrder α] (text : List (List α)) (L : Nat) :
    IsTotal (Nat × Nat) (fun a b => qgramLess text L b a = false) := by
  constructor
  intro a b
  cases hx : qgramLess text L b a with
  | false => exact Or.inl rfl
  | true =>
    refine Or.inr ?_
    unfold qgramLess at hx ⊢
    exact lexLess_asymm hx

/-! ## The bucketed builder: permutation and sortedness -/

theorem bucketSort_main {α : Type} [LinearOrder α] (text : List (List α)) (L : Nat) :
    ((((groupRuns (fun a b => decide (qgramKey text L a = qgramKey text L b))
        (List.insertionSort (fun a b => qgramLess text L b a = false) (idFill text))).map
        fun g =>
          List.insertionSort (fun a b => AdvancedSuffixLess_ text L b a = false) g).flatten).Pairwise
      fun a b => AdvancedSuffixLess_ text 0 a b = true) ∧
    (((groupRuns (fun a b => decide (qgramKey text L a = qgramKey text L b))
        (List.insertionSort (fun a b => qgramLess text L b a = false) (idFill text))).map
        fun g =>
          List.insertionSort (fun a b => AdvancedSuffixLess_ text L b a = false) g).flatten).Perm
      (idFill text) := by
  haveI := qgramLe_isTrans text L
  haveI := qgramLe_isTotal text L
  haveI := advLe_isTrans text L
  haveI := advLe_isTotal text L
  have hsa1perm : (List.insertionSort (fun a b => qgramLess text L b a = false)
      (idFill text)).Perm (idFill text) := List.perm_insertionSort _ _
  set sa1 := List.insertionSort (fun a b => qgramLess text L b a = false) (idFill text)
    with hsa1def
  set beq := fun a b : Nat × Nat => decide (qgramKey text L a = qgramKey text L b)
    with hbeqdef
  set buckets := groupRuns beq sa1 with hbucketsdef
  have hflat : buckets.flatten = sa1 := groupRuns_flatten beq sa1
  have hperm : ((buckets.map fun g =>
      List.insertionSort (fun a b => AdvancedSuffixLess_ text L b a = false) g).flatten).Perm
      (idFill text) := by
    refine (flatten_map_insertionSort_perm _ buckets).trans ?_
    rw [hflat]
    exact hsa1perm
  refine ⟨?_, hperm⟩
  have hR : sa1.Pairwise (fun a b => qgramLess text L b a = false) :=
    List.sorted_insertionSort (fun a b => qgramLess text L b a = false) (idFill text)
  have hconv : ∀ x y z : Nat × Nat, qgramLess text L y x = false →
      qgramLess text L z y = false → qgramKey text L x = qgramKey text L z →
      qgramKey text L x = qgramKey text L y := by
    intro x y z hxy hyz hxz
    unfold qgramLess at hxy hyz
    by_contra hne
    have h1 : lexLess (qgramKey text L x) (qgramKey text L y) = true := by
      cases hb : lexLess (qgramKey text L x) (qgramKey text L y) with
      | true => rfl
      | false => exact absurd (lexLess_conn hb hxy) hne
    rw [← hxz] at hyz
    rw [h1] at hyz
    exact Bool.noConfusion hyz
  have hcross := groupRuns_cross (qgramKey text L)
      (fun a b => qgramLess text L b a = false) hconv sa1 hR
  have houterR : buckets.Pairwise
      (fun g h => ∀ x ∈ g, ∀ y ∈ h, qgramLess text L y x = false) :=
    (List.pairwise_flatten.mp (by rw [hflat]; exact hR)).2
  have houter := houterR.and hcross
  have hmem_sa1 : ∀ p ∈ sa1, p.1 < text.length ∧ p.2 < (text.getD p.1 []).length := by
    intro p hp
    exact (mem_idFill text p).mp (hsa1perm.mem_iff.mp hp)
  have hnd_sa1 : sa1.Nodup := hsa1perm.symm.nodup (nodup_idFill text)
  refine List.pairwise_flatten.mpr ⟨?_, ?_⟩
  · intro l hl
    obtain ⟨g, hg, rfl⟩ := List.mem_map.mp hl
    have hgsub := groupRuns_sublist beq sa1 g hg
    have hgnd : g.Nodup := List.Pairwise.sublist hgsub hnd_sa1
    have hconst : ∀ x ∈ g, ∀ y ∈ g, qgramKey text L x = qgramKey text L y :=
      groupRuns_key_const (qgramKey text L) sa1 g hg
    have hsg : (List.insertionSort
        (fun a b => AdvancedSuffixLess_ text L b a = false) g).Pairwise
        (fun a b => AdvancedSuffixLess_ text L b a = false) :=
      List.sorted_insertionSort (fun a b => AdvancedSuffixLess_ text L b a = false) g
    have hsgnd : (List.insertionSort
        (fun a b => AdvancedSuffixLess_ text L b a = false) g).Nodup :=
      (List.perm_insertionSort _ g).symm.nodup hgnd
    have hcomb := hsg.and hsgnd
    refine List.Pairwise.imp_of_mem ?_ hcomb
    intro a b ha hb hab
    have hag : a ∈ g := (List.mem_insertionSort _).mp ha
    have hbg : b ∈ g := (List.mem_insertionSort _).mp hb
    have h1 : AdvancedSuffixLess_ text L b a = false := hab.1
    have hkeyeq : qgramKey text L a = qgramKey text L b := hconst a hag b hbg
    have hkne : sKey text L a ≠ sKey text L b :=
      bucket_sKey_ne text L (hmem_sa1 a (hgsub.subset hag))
        (hmem_sa1 b (hgsub.subset hbg)) hab.2 hkeyeq
    have h2 : sKeyLess (sKey text L a) (sKey text L b) = true := by
      cases hb2 : sKeyLess (sKey text L a) (sKey text L b) with
      | true => rfl
      | false =>
        rw [AdvancedSuffixLess_eq_sKeyLess] at h1
        exact absurd (sKeyLess_conn hb2 h1) hkne
    have e1 : sKey text 0 a = (qgramKey text L a ++ (suffixAt text a).drop L, a.1) := by
      unfold sKey qgramKey
      rw [List.drop_zero, List.take_append_drop]
    have e2 : sKey text 0 b = (qgramKey text L b ++ (suffixAt text b).drop L, b.1) := by
      unfold sKey qgramKey
      rw [List.drop_zero, List.take_append_drop]
    rw [AdvancedSuffixLess_eq_sKeyLess, e1, e2, hkeyeq, sKeyLess_append]
    exact h2
  · refine List.pairwise_map.mpr ?_
    refine List.Pairwise.imp_of_mem ?_ houter
    intro g h hgmem hhmem hand x hx y hy
    have hxg : x ∈ g := (List.mem_insertionSort _).mp hx
    have hyh : y ∈ h := (List.mem_insertionSort _).mp hy
    have hRxy : qgramLess text L y x = false := hand.1 x hxg y hyh
    have hkne : qgramKey text L x ≠ qgramKey text L y := hand.2 x hxg y hyh
    have hql : lexLess (qgramKey text L x) (qgramKey text L y) = true := by
      cases hb : lexLess (qgramKey text L x) (qgramKey text L y) with
      | true => rfl
      | false =>
        unfold qgramLess at hRxy
        exact absurd (lexLess_conn hb hRxy) hkne
    have hsl : lexLess (suffixAt text x) (suffixAt text y) = true :=
      lexLess_take L (suffixAt text x) (suffixAt text y) hql
    rw [AdvancedSuffixLess_eq_sKeyLess]
    unfold sKeyLess sKey
    simp [hsl]

theorem lexLess_self_append {α : Type} [LinearOrder α] (u w : List α) (hw : w ≠ []) :
    lexLess u (u ++ w) = true := by
  have h := lexLess_append_left u [] w
  rw [List.append_nil] at h
  rw [h]
  cases w with
  | nil => exact absurd rfl hw
  | cons c cs => rfl

/-! ## Claim theorems -/

/-- C1: for every string-set `text`, the suffix array built by
`createSuffixArray` with the `QuickSortBucketTag` algorithm (identity fill,
coarse `L`-prefix sort, bucket detection, per-bucket refinement) is a
permutation of all valid positions `(s, o)` with `s < |text|` and
`o < |text[s]|`, and every adjacent pair of the result satisfies the
string-set comparator `AdvancedSuffixLess_` (offset 0). -/
theorem claim_C1_sa_perm_sorted {α : Type} [LinearOrder α]
    (sigma : Nat) (text : List (List α)) :
    (createSuffixArray sigma text).Perm (idFill text) ∧
    (∀ p : Nat × Nat,
      p ∈ idFill text ↔ p.1 < text.length ∧ p.2 < (text.getD p.1 []).length) ∧
    (createSuffixArray sigma text).Chain'
      (fun a b => AdvancedSuffixLess_ text 0 a b = true) := by
  have hmain := bucketSort_main text (initialSortLength sigma)
  exact ⟨hmain.2, fun p => mem_idFill text p, hmain.1.chain'⟩

/-- C9: the initial coarse-sort prefix length is chosen from the alphabet
size `|Σ|`: `L = 10` when `|Σ| ≤ 5`, `L = 3` when `5 < |Σ| < 10`, and
`L = 2` otherwise. -/
theorem claim_C9_initial_sort_length (sigma : Nat) :
    (sigma ≤ 5 → initialSortLength sigma = 10) ∧
    (5 < sigma → sigma < 10 → initialSortLength sigma = 3) ∧
    (10 ≤ sigma → initialSortLength sigma = 2) := by
  unfold initialSortLength
  refine ⟨?_, ?_, ?_⟩
  · intro h
    rw [if_pos h]
  · intro h1 h2
    rw [if_neg (by omega), if_pos h2]
  · intro h
    rw [if_neg (by omega), if_neg (by omega)]

/-- Witness for C9 at the three concrete alphabet sizes 4, 7 and 21. -/
theorem claim_C9_witness :
    initialSortLength 4 = 10 ∧ initialSortLength 7 = 3 ∧ initialSortLength 21 = 2 :=
  ⟨(claim_C9_initial_sort_length 4).1 (by decide),
    (claim_C9_initial_sort_length 7).2.1 (by decide) (by decide),
    (claim_C9_initial_sort_length 21).2.2 (by decide)⟩

/-- C2: for distinct suffix positions `a`, `b` of a string-set, the
comparator `AdvancedSuffixLess_` (with offset `off`) returns `true` when the
first differing character of the two offset-shifted suffixes is smaller on
the `a` side; when the `a` suffix is a strict prefix of the `b` suffix the
shorter compares less; and when the remaining contents are identical,
`less(a,b)` holds exactly when `a`'s sequence index is greater.
`less(a,a)` is `false`. -/
theorem claim_C2_comparator {α : Type} [LinearOrder α]
    (text : List (List α)) (off : Nat) (a b : Nat × Nat) (hne : a ≠ b) :
    (AdvancedSuffixLess_ text off a a = false) ∧
    (∀ (w u' v' : List α) (x y : α),
      (suffixAt text a).drop off = w ++ x :: u' →
      (suffixAt text b).drop off = w ++ y :: v' →
      x < y → AdvancedSuffixLess_ text off a b = true) ∧
    (∀ w : List α,
      (suffixAt text b).drop off = (suffixAt text a).drop off ++ w →
      w ≠ [] → AdvancedSuffixLess_ text off a b = true) ∧
    ((suffixAt text a).drop off = (suffixAt text b).drop off →
      (AdvancedSuffixLess_ text off a b = true ↔ b.1 < a.1)) := by
  refine ⟨?_, ?_, ?_, ?_⟩
  · rw [AdvancedSuffixLess_eq_sKeyLess]
    exact sKeyLess_irrefl _
  · intro w u' v' x y hadec hbdec hxy
    rw [AdvancedSuffixLess_eq_sKeyLess]
    unfold sKeyLess sKey
    rw [hadec, hbdec, lexLess_append_left]
    have : lexLess (x :: u') (y :: v') = true := by
      unfold lexLess
      rw [if_pos hxy]
    simp [this]
  · intro w hdec hw
    rw [AdvancedSuffixLess_eq_sKeyLess]
    unfold sKeyLess sKey
    rw [hdec, lexLess_self_append _ _ hw]
    simp
  · intro heq
    rw [AdvancedSuffixLess_eq_sKeyLess]
    unfold sKeyLess sKey
    rw [heq, lexLess_irrefl]
    simp

/-- Witness for C2 on the string-set `["ab","ab"]` over `Nat` with the
identical-suffix tie-break at positions `(1,0)` and `(0,0)`,
plus irreflexivity. -/
theorem claim_C2_witness :
    AdvancedSuffixLess_ [[0, 1], [0, 1]] 0 ((1 : Nat), (0 : Nat)) (0, 0) = true ∧
    AdvancedSuffixLess_ [[0, 1], [0, 1]] 0 ((1 : Nat), (0 : Nat)) (1, 0) = false :=
  ⟨((claim_C2_comparator [[0, 1], [0, 1]] 0 (1, 0) (0, 0) (by decide)).2.2.2
      (by decide)).mpr (by decide),
    (claim_C2_comparator [[0, 1], [0, 1]] 0 (1, 0) (0, 0) (by decide)).1⟩

/-! ## Lemma layer: the match order and the hyper sort -/

theorem matchLt_iff (a b : Match) :
    matchLt a b = true ↔
      (a.qryId < b.qryId ∨ (a.qryId = b.qryId ∧
        (a.subjId < b.subjId ∨ (a.subjId = b.subjId ∧
          (a.subjStart < b.subjStart ∨ (a.subjStart = b.subjStart ∧
            a.qryStart < b.qryStart)))))) := by
  unfold matchLt
  split_ifs with h1 h2 h3 <;> simp only [decide_eq_true_eq] <;> omega

theorem matchLt_false_iff (a b : Match) :
    matchLt a b = false ↔
      ¬ (a.qryId < b.qryId ∨ (a.qryId = b.qryId ∧
        (a.subjId < b.subjId ∨ (a.subjId = b.subjId ∧
          (a.subjStart < b.subjStart ∨ (a.subjStart = b.subjStart ∧
            a.qryStart < b.qryStart)))))) := by
  rw [Bool.eq_false_iff]
  exact not_congr (matchLt_iff a b)

theorem matchLe_isTrans : IsTrans Match (fun a b => matchLt b a = false) := by
  constructor
  intro a b c h1 h2
  rw [matchLt_false_iff] at h1 h2 ⊢
  omega

theorem matchLe_isTotal : IsTotal Match (fun a b => matchLt b a = false) := by
  constructor
  intro a b
  cases hx : matchLt b a with
  | false => exact Or.inl rfl
  | true =>
    refine Or.inr ?_
    rw [matchLt_false_iff]
    rw [matchLt_iff] at hx
    omega

theorem hyperKey_conv (sF : Nat) :
    ∀ x y z : Match, matchLt y x = false → matchLt z y = false →
      hyperKey sF x = hyperKey sF z → hyperKey sF x = hyperKey sF y := by
  intro x y z hxy hyz hxz
  rw [matchLt_false_iff] at hxy hyz
  unfold hyperKey at hxz ⊢
  have hq : x.qryId = z.qryId := congrArg Prod.fst hxz
  have hq1 : x.qryId = y.qryId := by omega
  have hs1 : x.subjId ≤ y.subjId := by omega
  have hs2 : y.subjId ≤ z.subjId := by omega
  have hd : x.subjId / sF = z.subjId / sF := congrArg Prod.snd hxz
  have d1 : x.subjId / sF ≤ y.subjId / sF := Nat.div_le_div_right hs1
  have d2 : y.subjId / sF ≤ z.subjId / sF := Nat.div_le_div_right hs2
  rw [← hd] at d2
  rw [Prod.mk.injEq]
  exact ⟨hq1, Nat.le_antisymm d1 d2⟩

theorem sizeLe_isTrans {β : Type} :
    IsTrans (List β) (fun g h => decide (g.length < h.length) = false) := by
  constructor
  intro g h i h1 h2
  simp only [decide_eq_false_iff_not] at h1 h2 ⊢
  omega

theorem sizeLe_isTotal {β : Type} :
    IsTotal (List β) (fun g h => decide (g.length < h.length) = false) := by
  constructor
  intro g h
  rcases Nat.lt_or_ge g.length h.length with hx | hx
  · refine Or.inr ?_
    simp only [decide_eq_false_iff_not]
    omega
  · refine Or.inl ?_
    simp only [decide_eq_false_iff_not]
    omega

theorem mem_flatten_split {β : Type} :
    ∀ (L : List (List β)) (g : List β), g ∈ L →
      ∃ pre post, pre ++ g ++ post = L.flatten
  | [], g, h => absurd h (List.not_mem_nil g)
  | l :: L, g, h => by
    rcases List.mem_cons.mp h with rfl | h'
    · exact ⟨[], L.flatten, by simp⟩
    · obtain ⟨pre, post, hsplit⟩ := mem_flatten_split L g h'
      refine ⟨l ++ pre, post, ?_⟩
      rw [List.flatten_cons, ← hsplit]
      simp

/-- C3 counterexample: with BLASTX frame counts (`qNumFrames = 6`,
`sNumFrames = 1`) the output of `myHyperSortSingleIndex` does NOT keep all
matches of one `(trueQryId, trueSubjId)` pair contiguous: the two frames of
query 0 end up as separate intervals, and the size-descending interval sort
places the two matches of query 1 between them. -/
theorem claim_C3_counterexample :
    ¬ contiguousBy (fun m => (m.qryId / 6, m.subjId / 1))
      (myHyperSortSingleIndex 1
        [⟨0, 0, 0, 0, 0⟩, ⟨0, 0, 1, 1, 0⟩, ⟨0, 0, 2, 2, 0⟩,
         ⟨1, 0, 0, 0, 0⟩, ⟨6, 0, 0, 0, 0⟩, ⟨6, 0, 1, 1, 0⟩]) := by
  unfold contiguousBy
  decide

/-- C3 (amended): after `myHyperSortSingleIndex`, the matches sharing the
same `qryId` (frame NOT collapsed) and the same `trueSubjId`
(`subjId / sNumFrames`) form one contiguous interval; the intervals appear
in non-increasing size order; and each interval is a contiguous slice of
the initially sorted match vector. -/
theorem claim_C3_hyperSort_amended (sF : Nat) (ms : List Match) :
    ∃ gs : List (List Match),
      myHyperSortSingleIndex sF ms = gs.flatten ∧
      (∀ g ∈ gs, ∀ x ∈ g, ∀ y ∈ g, hyperKey sF x = hyperKey sF y) ∧
      gs.Pairwise (fun g h => ∀ x ∈ g, ∀ y ∈ h, hyperKey sF x ≠ hyperKey sF y) ∧
      gs.Chain' (fun g h => h.length ≤ g.length) ∧
      (∀ g ∈ gs, ∃ pre post, pre ++ g ++ post =
        List.insertionSort (fun a b => matchLt b a = false) ms) := by
  haveI := matchLe_isTrans
  haveI := matchLe_isTotal
  haveI : IsTrans (List Match) (fun g h => decide (g.length < h.length) = false) :=
    sizeLe_isTrans
  haveI : IsTotal (List Match) (fun g h => decide (g.length < h.length) = false) :=
    sizeLe_isTotal
  refine ⟨List.insertionSort (fun g h => decide (g.length < h.length) = false)
      (groupRuns (fun a b => decide (hyperKey sF a = hyperKey sF b))
        (List.insertionSort (fun a b => matchLt b a = false) ms)),
    rfl, ?_, ?_, ?_, ?_⟩
  · intro g hg
    exact groupRuns_key_const (hyperKey sF) _ g ((List.mem_insertionSort _).mp hg)
  · have hR : (List.insertionSort (fun a b => matchLt b a = false) ms).Pairwise
        (fun a b => matchLt b a = false) :=
      List.sorted_insertionSort (fun a b => matchLt b a = false) ms
    have hcross := groupRuns_cross (hyperKey sF)
        (fun a b => matchLt b a = false) (hyperKey_conv sF) _ hR
    refine hcross.perm (List.perm_insertionSort _ _).symm ?_
    intro g h hgh x hx y hy
    exact fun hk => hgh y hy x hx hk.symm
  · have hs := List.sorted_insertionSort
      (fun g h : List Match => decide (g.length < h.length) = false)
      (groupRuns (fun a b => decide (hyperKey sF a = hyperKey sF b))
        (List.insertionSort (fun a b => matchLt b a = false) ms))
    refine List.Pairwise.chain' ?_
    refine List.Pairwise.imp ?_ hs
    intro g h hgh
    simp only [decide_eq_false_iff_not] at hgh
    omega
  · intro g hg
    have hmem := (List.mem_insertionSort _).mp hg
    have hsplit := mem_flatten_split _ g hmem
    rwa [groupRuns_flatten] at hsplit

/-- C10: `myHyperSortSingleIndex` permutes its input: no match is lost or
duplicated by the interval regrouping. -/
theorem claim_C10_hyperSort_perm (sF : Nat) (ms : List Match) :
    (myHyperSortSingleIndex sF ms).Perm ms := by
  show ((List.insertionSort (fun g h => decide (g.length < h.length) = false)
      (groupRuns (fun a b => decide (hyperKey sF a = hyperKey sF b))
        (List.insertionSort (fun a b => matchLt b a = false) ms))).flatten).Perm ms
  refine (List.Perm.flatten (List.perm_insertionSort _ _)).trans ?_
  rw [groupRuns_flatten]
  exact List.perm_insertionSort _ _

/-! ## Lemma layer: LCA -/

theorem liftN_valid (taxParents taxHeights : List Nat) (r : Nat)
    (hv : TaxValid taxParents taxHeights r) :
    ∀ (k n : Nat), n < taxParents.length → 0 < n → k ≤ taxHeights.getD n 0 →
      liftN taxParents k n < taxParents.length ∧ 0 < liftN taxParents k n ∧
      taxHeights.getD (liftN taxParents k n) 0 = taxHeights.getD n 0 - k := by
  intro k
  induction k with
  | zero =>
    intro n h1 h2 _
    exact ⟨h1, h2, by simp [liftN]⟩
  | succ k ih =>
    intro n h1 h2 h3
    obtain ⟨_, _, _, hstep, _⟩ := hv
    have hpos : 0 < taxHeights.getD n 0 := Nat.lt_of_lt_of_le (Nat.succ_pos k) h3
    obtain ⟨p1, p2, p3⟩ := hstep n h1 h2 hpos
    have hk : k ≤ taxHeights.getD (taxParents.getD n 0) 0 := by omega
    have ihp := ih (taxParents.getD n 0) p2 p1 hk
    simp only [liftN]
    exact ⟨ihp.1, ihp.2.1, by rw [ihp.2.2, p3]; omega⟩

/-- C4 counterexample: on the spec's own scenario arrays
(parents `[0,0,1,1,2,2]`, heights `[0,1,1,2,2,2]`) the lockstep walk of
`computeLCA 3 4` reaches the sentinel `0` and raises the
"path didn't lead to root" error instead of returning `1` as the claim
states (the height array is inconsistent with the parent array). -/
theorem claim_C4_counterexample :
    computeLCA [0, 0, 1, 1, 2, 2] [0, 1, 1, 2, 2, 2] 3 4 100 =
      some (Except.error ()) ∧
    ¬ computeLCA [0, 0, 1, 1, 2, 2] [0, 1, 1, 2, 2, 2] 3 4 100 =
      some (Except.ok 1) := by
  have h1 : computeLCA [0, 0, 1, 1, 2, 2] [0, 1, 1, 2, 2, 2] 3 4 100 =
      some (Except.error ()) := rfl
  refine ⟨h1, ?_⟩
  rw [h1]
  simp

/-- C4 (amended): on the arrays parents `[0,0,1,1,2,2]` and heights
`[0,1,1,2,2,2]`, `computeLCA` returns `2` for `LCA(4,5)`, while `LCA(3,4)`
and `LCA(3,5)` raise the malformed-taxonomy error (their lockstep paths hit
the sentinel because the heights are inconsistent with the parents). -/
theorem claim_C4_lca_amended :
    computeLCA [0, 0, 1, 1, 2, 2] [0, 1, 1, 2, 2, 2] 4 5 100 =
      some (Except.ok 2) ∧
    computeLCA [0, 0, 1, 1, 2, 2] [0, 1, 1, 2, 2, 2] 3 4 100 =
      some (Except.error ()) ∧
    computeLCA [0, 0, 1, 1, 2, 2] [0, 1, 1, 2, 2, 2] 3 5 100 =
      some (Except.error ()) := by
  exact ⟨rfl, rfl, rfl⟩

/-- C5: on a well-formed taxonomy, `computeLCA n n` returns `n` immediately,
and `computeLCA n root` returns the root for every node `n` (the deeper node
is lifted to height 0, where it must equal the root, and the lockstep loop
returns it on its first test). -/
theorem claim_C5_lca_identity_root (taxParents taxHeights : List Nat)
    (r n fuel : Nat) (hv : TaxValid taxParents taxHeights r)
    (hn : n < taxParents.length) (hn0 : 0 < n) (hfuel : 0 < fuel) :
    computeLCA taxParents taxHeights n n fuel = some (Except.ok n) ∧
    computeLCA taxParents taxHeights n r fuel = some (Except.ok r) := by
  obtain ⟨hr0, hrlen, hrh, hstep, hroot⟩ := hv
  constructor
  · unfold computeLCA
    rw [if_pos rfl]
  · by_cases hnr : n = r
    · subst hnr
      unfold computeLCA
      rw [if_pos rfl]
    · have hlift := liftN_valid taxParents taxHeights r
        ⟨hr0, hrlen, hrh, hstep, hroot⟩ (taxHeights.getD n 0) n hn hn0 (Nat.le_refl _)
      have h0 : taxHeights.getD (liftN taxParents (taxHeights.getD n 0) n) 0 = 0 := by
        rw [hlift.2.2]
        omega
      have hr' : liftN taxParents (taxHeights.getD n 0) n = r :=
        hroot _ hlift.1 hlift.2.1 h0
      simp only [computeLCA, if_neg hnr, hrh, Nat.sub_zero, hr', Nat.sub_self]
      simp only [liftN]
      cases fuel with
      | zero => omega
      | succ f =>
        have hne : r ≠ 0 := Nat.pos_iff_ne_zero.mp hr0
        simp [lcaLoop, hne]

/-- Witness for C5 on the taxonomy parents `[0,0,1,1,2,2]`, heights
`[0,0,1,1,2,2]` with root `1`, node `3` and fuel `10`. -/
theorem claim_C5_witness :
    computeLCA [0, 0, 1, 1, 2, 2] [0, 0, 1, 1, 2, 2] 3 3 10 =
      some (Except.ok 3) ∧
    computeLCA [0, 0, 1, 1, 2, 2] [0, 0, 1, 1, 2, 2] 3 1 10 =
      some (Except.ok 1) :=
  claim_C5_lca_identity_root [0, 0, 1, 1, 2, 2] [0, 0, 1, 1, 2, 2] 1 3 10
    (by decide) (by decide) (by decide) (by decide)

/-! ## Lemma layer: association tables, band size, e-value, driver -/

theorem assocFind_store {γ : Type} :
    ∀ (t : List (Nat × γ)) (k : Nat) (v : γ),
      assocFind (assocStore t k v) k = some v
  | [], k, v => by simp [assocStore, assocFind]
  | (k', v') :: rest, k, v => by
    by_cases h : k' = k
    · subst h
      simp [assocStore, assocFind]
    · simp only [assocStore, if_neg h, assocFind]
      exact assocFind_store rest k v

theorem assocStore_idem {γ : Type} :
    ∀ (t : List (Nat × γ)) (k : Nat) (v : γ),
      assocStore (assocStore t k v) k v = assocStore t k v
  | [], k, v => by simp [assocStore]
  | (k', v') :: rest, k, v => by
    by_cases h : k' = k
    · subst h
      simp [assocStore]
    · simp only [assocStore, if_neg h]
      rw [assocStore_idem rest k v]

theorem bandSize_memo (band : Int) (table : List (Nat × Int)) (n : Nat)
    (h : band = -3 ∨ band = -2) :
    _bandSize band (_bandSize band table n).2 n =
      ((_bandSize band table n).1, (_bandSize band table n).2) := by
  simp only [_bandSize, if_pos h]
  rw [assocFind_store]
  rw [assocStore_idem]

/-- C6: `_bandSize` returns `⌈log2 n⌉` under band option `-3` and `⌊√n⌋`
under `-2` (computing it on a cache miss, returning the cached value on a
hit), `INT_MAX` under `-1`, and the option value itself when it is `≥ 0`;
in particular `1024 ↦ 10` under `-3` and `100 ↦ 10` under `-2`; and a
second call with the same length returns the same memoized value and leaves
the table unchanged. -/
theorem claim_C6_bandSize (band : Int) (table : List (Nat × Int)) (n : Nat)
    (hn : 1 ≤ n) :
    (band = -3 → assocFind table n = none →
      (_bandSize band table n).1 = Nat.clog 2 n) ∧
    (band = -2 → assocFind table n = none →
      (_bandSize band table n).1 = Nat.sqrt n) ∧
    (band = -3 ∨ band = -2 → ∀ v, assocFind table n = some v →
      (_bandSize band table n).1 = v) ∧
    (band = -1 → (_bandSize band table n).1 = intMax) ∧
    (0 ≤ band → (_bandSize band table n).1 = band) ∧
    (_bandSize (-3) [] 1024).1 = 10 ∧
    (_bandSize (-2) [] 100).1 = 10 ∧
    (band = -3 ∨ band = -2 →
      _bandSize band (_bandSize band table n).2 n =
        ((_bandSize band table n).1, (_bandSize band table n).2)) := by
  refine ⟨?_, ?_, ?_, ?_, ?_, ?_, ?_, fun h => bandSize_memo band table n h⟩
  · rintro rfl hmiss
    simp [_bandSize, hmiss]
  · rintro rfl hmiss
    simp [_bandSize, hmiss]
  · rintro (rfl | rfl) v hhit <;> simp [_bandSize, hhit]
  · rintro rfl
    simp [_bandSize]
  · intro h0
    have h1 : ¬ (band = -3 ∨ band = -2) := by omega
    have h2 : ¬ band = -1 := by omega
    simp [_bandSize, h1, h2]
  · have hc : (Nat.clog 2 1024 : Int) = 10 := by norm_num [Nat.clog]
    simp [_bandSize, assocFind, hc]
  · have hs : (Nat.sqrt 100 : Int) = 10 := by norm_num [Nat.sqrt]
    simp [_bandSize, assocFind, hs]

/-- Witness for C6 at band `-3`, the empty table and length `1024`. -/
theorem claim_C6_witness : (_bandSize (-3) [] 1024).1 = 10 :=
  (claim_C6_bandSize (-3) [] 1024 (by decide)).2.2.2.2.2.1

/-- C7: `computeEValueThreadSafe` divides the query length by 3 exactly when
the program translates the query, looks up (or computes and inserts) the
length adjustment for that length in the per-thread cache, and sets and
returns the e-value `evalue(rawScore, ql − adj, dbTotalLength − adj)`
(`uint64` subtraction). -/
theorem claim_C7_evalue {ε : Type} (qryTranslated : Bool) (dbTotalLength : Nat)
    (lengthAdj : Nat → Nat → Nat) (evalue : Nat → Nat → Nat → ε)
    (m : BMatch ε) (ql0 : Nat) (cache : List (Nat × Nat)) :
    (qryTranslated = true → ql0 / (if qryTranslated then 3 else 1) = ql0 / 3) ∧
    (qryTranslated = false → ql0 / (if qryTranslated then 3 else 1) = ql0) ∧
    (∀ a, assocFind cache (ql0 / (if qryTranslated then 3 else 1)) = some a →
      computeEValueThreadSafe qryTranslated dbTotalLength lengthAdj evalue m ql0 cache =
        (⟨m.alignmentScore, evalue m.alignmentScore
            (sub64 (ql0 / (if qryTranslated then 3 else 1)) a)
            (sub64 dbTotalLength a)⟩,
          evalue m.alignmentScore
            (sub64 (ql0 / (if qryTranslated then 3 else 1)) a)
            (sub64 dbTotalLength a),
          cache)) ∧
    (assocFind cache (ql0 / (if qryTranslated then 3 else 1)) = none →
      computeEValueThreadSafe qryTranslated dbTotalLength lengthAdj evalue m ql0 cache =
        (⟨m.alignmentScore, evalue m.alignmentScore
            (sub64 (ql0 / (if qryTranslated then 3 else 1))
              (lengthAdj dbTotalLength (ql0 / (if qryTranslated then 3 else 1))))
            (sub64 dbTotalLength
              (lengthAdj dbTotalLength (ql0 / (if qryTranslated then 3 else 1))))⟩,
          evalue m.alignmentScore
            (sub64 (ql0 / (if qryTranslated then 3 else 1))
              (lengthAdj dbTotalLength (ql0 / (if qryTranslated then 3 else 1))))
            (sub64 dbTotalLength
              (lengthAdj dbTotalLength (ql0 / (if qryTranslated then 3 else 1)))),
          assocStore cache (ql0 / (if qryTranslated then 3 else 1))
            (lengthAdj dbTotalLength (ql0 / (if qryTranslated then 3 else 1))))) := by
  refine ⟨?_, ?_, ?_, ?_⟩
  · rintro rfl
    simp
  · rintro rfl
    simp
  · intro a hhit
    simp [computeEValueThreadSafe, hhit]
  · intro hmiss
    simp [computeEValueThreadSafe, hmiss, assocFind_store]

/-- Witness for C7: translated query of length 9 (effective length 3), empty
cache, adjustment function `q / 2`, database length 1000. -/
theorem claim_C7_witness :
    computeEValueThreadSafe true 1000 (fun _ q => q / 2)
      (fun s a b => (s, a, b)) ⟨7, (0, 0, 0)⟩ 9 [] =
      (⟨7, (7, 2, 999)⟩, (7, 2, 999), [(3, 1)]) :=
  (claim_C7_evalue true 1000 (fun _ q => q / 2) (fun s a b => (s, a, b))
    ⟨7, (0, 0, 0)⟩ 9 []).2.2.2 rfl

/-- C8: `searchMain` returns 0 exactly when the pipeline completes without
an exception, and −1 exactly when one of the three catch sites fires
(out-of-memory, index error, generic), each printing its own diagnostic
template. -/
theorem claim_C8_searchMain (run : RunOutcome) :
    ((searchMain run).1 = 0 ↔ run = RunOutcome.success) ∧
    ((searchMain run).1 = -1 ↔ run ≠ RunOutcome.success) ∧
    searchMain RunOutcome.badAlloc = (-1, oomDiag) ∧
    (∀ w, searchMain (RunOutcome.indexError w) = (-1, indexDiag w)) ∧
    (∀ w, searchMain (RunOutcome.otherError w) = (-1, genericDiag w)) := by
  refine ⟨?_, ?_, rfl, fun w => rfl, fun w => rfl⟩
  · cases run <;> simp [searchMain]
  · cases run <;> simp [searchMain]

end Lambda
